import Mathlib

/-!
Verification development for the ebusd definition-file ingestion engine
(`lib/ebus/filereader.h` and `lib/utils/thread.cpp`).

The repository provides the header `filereader.h` (class declarations, the
inline default implementations of `extractDefaultsFromFilename` and
`addDefaultFromFile`, and the documentation of every operation) together with
`thread.cpp`.  The bodies of `FileReader::splitFields`,
`FileReader::readLineFromStream`, `MappedFileReader::addFromFile` and
`MappedFileReader::combineRow` live in a translation unit that is not part of
the sources at hand; those operations are modelled from the specification, as
marked on each definition below.
-/

set_option maxRecDepth 4096

namespace Ebusd

/-! ## Characters and trimming (FileReader::trim) -/

/-- Whitespace as used by field/line trimming: space and tab. -/
def isWsChar (c : Char) : Bool := c = ' ' || c = '\t'

/-- Modelled from the spec: left and right trim of a character list
(`FileReader::trim`, whose body is not in the sources at hand). -/
def trimList (cs : List Char) : List Char :=
  ((cs.dropWhile isWsChar).reverse.dropWhile isWsChar).reverse

/-- `FileReader::trim` on strings. -/
def FileReader.trim (s : String) : String := String.mk (trimList s.toList)

/-! ## Physical lines of a stream (istream getline semantics) -/

/-- Split a character stream into physical lines, one per `getline` call:
lines are separated by a newline, a trailing newline produces no extra empty
line, and a final unterminated line is still a line. -/
def splitLinesAux : List Char → List Char → List String
  | [], cur => if cur.isEmpty then [] else [String.mk cur]
  | c :: rest, cur =>
    if c = '\n' then String.mk cur :: splitLinesAux rest []
    else splitLinesAux rest (cur ++ [c])

/-- The physical lines of a stream given as a string. -/
def FileReader.splitLines (s : String) : List String := splitLinesAux s.toList []

/-! ## Content signature accumulators -/

/-- Modelled from the spec: an order-sensitive string hash used for the
content signature (a standard polynomial rolling hash, 32-bit normalized). -/
def lineHash (s : String) : Nat :=
  s.toList.foldl (fun a c => (a * 31 + c.toNat) % 4294967296) 7

/-- Modelled from the spec: order-dependent combination of per-line hashes
into the running content hash. -/
def hashCombine (h : Nat) (line : String) : Nat :=
  (h * 31 + lineHash line) % 4294967296

/-! ## Tokenizer (FileReader::splitFields), modelled from the spec -/

/-- Outcome of scanning the characters of one physical line. -/
inductive ParseOut where
  /-- The record is complete: these are its fields. -/
  | done (fields : List String)
  /-- A quoted field is still open at the end of the line: the fields closed
  so far and the pending content of the open field. -/
  | cont (acc : List String) (cur : List Char)
  deriving Repr, DecidableEq

/-- Modelled from the spec: the field scanner of `FileReader::splitFields`.
Fields are separated by `,`; a quote `\x22` opens a quoted region in which the
separator loses significance and a doubled quote denotes a literal quote; each
field is trimmed after unquoting. -/
def parseChars : List Char → Bool → List Char → List String → ParseOut
  | [], true, cur, acc => .cont acc cur
  | [], false, cur, acc => .done (acc ++ [FileReader.trim (String.mk cur)])
  | '"' :: '"' :: rest, true, cur, acc => parseChars rest true (cur ++ ['"']) acc
  | '"' :: rest, true, cur, acc => parseChars rest false cur acc
  | c :: rest, true, cur, acc => parseChars rest true (cur ++ [c]) acc
  | ',' :: rest, false, cur, acc =>
    parseChars rest false [] (acc ++ [FileReader.trim (String.mk cur)])
  | '"' :: rest, false, cur, acc => parseChars rest true cur acc
  | c :: rest, false, cur, acc => parseChars rest false (cur ++ [c]) acc

/-- Result of one `splitFields` call: the record, the updated line counter,
hash and size accumulators, the remaining stream lines and the return value
(whether the stream still had content to offer). -/
structure SplitState where
  row : List String
  lineNo : Nat
  hash : Nat
  size : Nat
  rest : List String
  more : Bool
  deriving Repr, DecidableEq

/-- Modelled from the spec: while a quoted field is open at the end of a
physical line, further lines are pulled in and appended (with a newline, the
line counter incremented and each pulled line folded into size/hash) until the
quote closes or the stream truly ends; an unterminated quote at end-of-stream
is accepted with the gathered content. -/
def gatherRest : List String → Nat → Nat → Nat → List String → List Char → SplitState
  | [], lineNo, hash, size, acc, cur =>
    ⟨acc ++ [FileReader.trim (String.mk cur)], lineNo, hash, size, [], true⟩
  | line :: ls, lineNo, hash, size, acc, cur =>
    match parseChars line.toList true (cur ++ ['\n']) acc with
    | .done fields =>
      ⟨fields, lineNo + 1, hashCombine hash (FileReader.trim line),
       size + (FileReader.trim line).length, ls, true⟩
    | .cont acc' cur' =>
      gatherRest ls (lineNo + 1) (hashCombine hash (FileReader.trim line))
        (size + (FileReader.trim line).length) acc' cur'

/-- Modelled from the spec: `FileReader::splitFields`.  Consumes the next
logical record from the stream (given as its remaining physical lines),
producing the trimmed fields, updating the line counter and the size/hash
accumulators, and returning `more = false` exactly when the stream had no more
characters to offer.  A blank or comment line yields an empty record. -/
def FileReader.splitFields (lines : List String) (lineNo hash size : Nat) : SplitState :=
  match lines with
  | [] => ⟨[], lineNo, hash, size, [], false⟩
  | line :: ls =>
    if (FileReader.trim line).toList.isEmpty then
      ⟨[], lineNo + 1, hashCombine hash (FileReader.trim line),
       size + (FileReader.trim line).length, ls, true⟩
    else if (FileReader.trim line).toList.head? = some '#' then
      ⟨[], lineNo + 1, hashCombine hash (FileReader.trim line),
       size + (FileReader.trim line).length, ls, true⟩
    else
      match parseChars line.toList false [] [] with
      | .done fields =>
        ⟨fields, lineNo + 1, hashCombine hash (FileReader.trim line),
         size + (FileReader.trim line).length, ls, true⟩
      | .cont acc cur =>
        gatherRest ls (lineNo + 1) (hashCombine hash (FileReader.trim line))
          (size + (FileReader.trim line).length) acc cur

/-! ## Row Reader (FileReader::readLineFromStream), modelled from the spec -/

/-- Modelled from the spec: the skip loop of `FileReader::readLineFromStream`
(body not in the sources at hand): repeatedly invoke the tokenizer, skip
records that come back empty, and return the first non-empty record together
with the 1-based line number at which it started, the updated accumulators and
the remaining stream.  The fuel argument is instantiated with the number of
remaining lines, which the loop can never exceed since every tokenizer call on
a non-empty stream consumes at least one line. -/
def readLineAux : Nat → List String → Nat → Nat → Nat →
    Option (List String × Nat) × (Nat × Nat × Nat) × List String
  | 0, lines, lineNo, hash, size => (none, (lineNo, hash, size), lines)
  | _ + 1, [], lineNo, hash, size => (none, (lineNo, hash, size), [])
  | fuel + 1, line :: ls, lineNo, hash, size =>
    let st := FileReader.splitFields (line :: ls) lineNo hash size
    if st.row.isEmpty then readLineAux fuel st.rest st.lineNo st.hash st.size
    else (some (st.row, lineNo + 1), (st.lineNo, st.hash, st.size), st.rest)

/-- `FileReader::readLineFromStream`, modelled from the spec (see
`readLineAux`). -/
def FileReader.readLineFromStream (lines : List String) (lineNo hash size : Nat) :
    Option (List String × Nat) × (Nat × Nat × Nat) × List String :=
  readLineAux lines.length lines lineNo hash size

/-! ## Mapped rows and the defaults store -/

/-- A mapped row: field name to value, in column order (C++ `map<string,
string>` with unique keys). -/
abbrev MRow := List (String × String)

/-- Look up a key in an association list (first match). -/
def getVal {β : Type} : List (String × β) → String → Option β
  | [], _ => none
  | (k', v) :: rest, k => if k' = k then some v else getVal rest k

/-- Replace the value of an existing key, or append the binding (C++
`map::operator[]` assignment). -/
def setVal {β : Type} : List (String × β) → String → β → List (String × β)
  | [], k, v => [(k, v)]
  | (k', v') :: rest, k, v =>
    if k' = k then (k', v) :: rest else (k', v') :: setVal rest k v

/-- Modelled from the spec: one step of default merging — a field that is
absent or empty in the row so far is filled from the default binding. -/
def mergeStep (acc : MRow) (kv : String × String) : MRow :=
  match getVal acc kv.1 with
  | none => setVal acc kv.1 kv.2
  | some v => if v = "" then setVal acc kv.1 kv.2 else acc

/-- Modelled from the spec: merge a regular mapped row against the current
default entry — any field absent or empty in the regular row is filled from
the corresponding field of the default. -/
def mergeRow (row dflt : MRow) : MRow := dflt.foldl mergeStep row

/-- The merged value of one field, written as the specification describes it:
the regular value wins unless absent or empty, in which case the default value
(or the empty regular value when the default has none) is used. -/
def mergeSpecVal : Option String → Option String → Option String
  | none, dv => dv
  | some v, dv => if v = "" then some (dv.getD "") else some v

/-- Merge against an optional default entry. -/
def mergeOptRow (row : MRow) : Option MRow → MRow
  | some d => mergeRow row d
  | none => row

/-- Modelled from the spec: sub-rows are merged positionally — sub-row `i` of
the regular row merges against sub-row `i` of the default, when present; a
regular row with fewer sub-rows than the default receives no merging for the
missing ones. -/
def mergeSubRows : List MRow → List MRow → List MRow
  | [], _ => []
  | s :: subs, [] => s :: subs
  | s :: subs, d :: dsubs => mergeRow s d :: mergeSubRows subs dsubs

/-! ## Column mapping -/

/-- The established column mapping: the ordered main column names and the
repeating tail (sub-group) column names (`m_columnNames` plus the detected
repeating pattern). -/
structure FieldMapping where
  mainCols : List String
  subCols : List String
  deriving Repr, DecidableEq

/-- Build a mapped row from column names and positional values; a record with
fewer fields leaves the trailing mapped values absent (zip truncation). -/
def zipCols (cols vals : List String) : MRow := cols.zip vals

/-- Split a list into consecutive chunks of at most `n` elements; the fuel is
instantiated with the list length, which the loop can never exceed since every
chunk consumes at least one element. -/
def chunkFuel : Nat → Nat → List String → List (List String)
  | _, _, [] => []
  | _, 0, _ :: _ => []
  | 0, _ + 1, _ :: _ => []
  | fuel + 1, n + 1, x :: l =>
    (x :: l).take (n + 1) :: chunkFuel fuel (n + 1) ((x :: l).drop (n + 1))

/-- Split a list into consecutive chunks of at most `n` elements. -/
def chunkList (n : Nat) (l : List String) : List (List String) :=
  chunkFuel l.length n l

/-- Modelled from the spec: interpret a record against the established
mapping — positional fields map to the main columns, and fields beyond the
main column count are grouped into repeating sub-group mapped rows in order. -/
def applyMapping (fm : FieldMapping) (rec : List String) : MRow × List MRow :=
  (zipCols fm.mainCols rec,
   if fm.subCols.isEmpty then []
   else (chunkList fm.subCols.length (rec.drop fm.mainCols.length)).map (zipCols fm.subCols))

/-! ## The Mapped-Row Engine (MappedFileReader) -/

/-- Result codes (`lib/ebus/result.h`); only the codes reachable in the
modelled fragment are represented. -/
inductive result_t where
  | RESULT_OK
  | RESULT_ERR_INVALID_ARG
  | RESULT_ERR_EOF
  deriving Repr, DecidableEq

/-- The mutable state of a `MappedFileReader` instance: the construction flag
`m_supportsDefaults`, the column mapping `m_columnNames` (`none` while no
mapping is established) and the defaults store `m_lastDefaults` /
`m_lastSubDefaults` keyed by type. -/
structure EngineState where
  supportsDefaults : Bool
  columnNames : Option FieldMapping
  lastDefaults : List (String × MRow)
  lastSubDefaults : List (String × List MRow)
  deriving Repr, DecidableEq

/-- The concrete consumer's caller-defined operations: establishing the field
mapping from the header record (`none` = mapping rejected) and deriving the
type string of a mapped row. -/
structure Consumer where
  getFieldMap : List String → Option FieldMapping
  typeOf : MRow → String

/-- Default implementation of `MappedFileReader::addDefaultFromFile`
(filereader.h lines 213–217): fails with description "defaults not supported"
and result code `RESULT_ERR_INVALID_ARG`. -/
def MappedFileReader.addDefaultFromFile (_row : MRow) (_subRows : List MRow) :
    result_t × String :=
  (.RESULT_ERR_INVALID_ARG, "defaults not supported")

/-- Does the record carry the default marker: its first field begins with
`*`? -/
def isDefaultRow (rec : List String) : Bool :=
  match rec with
  | [] => false
  | f :: _ => f.toList.head? = some '*'

/-- Strip the default marker from the first field of a record. -/
def stripMarker (rec : List String) : List String :=
  match rec with
  | [] => []
  | f :: rest => String.mk (f.toList.drop 1) :: rest

/-- Outcome of handing one record to the engine. -/
inductive ProcOut where
  /-- The record was accepted: the updated engine state, and the merged mapped
  row with its sub-rows when one was handed to the concrete consumer's
  `addFromFile` (mapping and default rows hand nothing on). -/
  | ok (st : EngineState) (delivered : Option (MRow × List MRow))
  /-- The record was rejected with a result code and a description. -/
  | err (code : result_t) (description : String)
  deriving Repr, DecidableEq

/-- Modelled from the spec: `MappedFileReader::addFromFile` (body not in the
sources at hand).  With no mapping yet, the record establishes the column
mapping via the consumer's `getFieldMap`.  Otherwise a record whose first
field begins with `*` is a default row: with default support its type's entry
in the defaults store is replaced outright by the stripped mapped row and
sub-rows as a unit; without default support the inherited
`addDefaultFromFile` fails.  Any other record is converted with the
established mapping, merged against the current default entry for its type
and handed to the concrete consumer. -/
def MappedFileReader.addFromFile (c : Consumer) (st : EngineState)
    (rec : List String) : ProcOut :=
  match st.columnNames with
  | none =>
    match c.getFieldMap rec with
    | none => .err .RESULT_ERR_INVALID_ARG "invalid field map"
    | some fm => .ok { st with columnNames := some fm } none
  | some fm =>
    if isDefaultRow rec then
      if st.supportsDefaults then
        .ok { st with
              lastDefaults := setVal st.lastDefaults
                (c.typeOf (applyMapping fm (stripMarker rec)).1)
                (applyMapping fm (stripMarker rec)).1
              lastSubDefaults := setVal st.lastSubDefaults
                (c.typeOf (applyMapping fm (stripMarker rec)).1)
                (applyMapping fm (stripMarker rec)).2 } none
      else
        .err (MappedFileReader.addDefaultFromFile
            (applyMapping fm (stripMarker rec)).1 (applyMapping fm (stripMarker rec)).2).1
          (MappedFileReader.addDefaultFromFile
            (applyMapping fm (stripMarker rec)).1 (applyMapping fm (stripMarker rec)).2).2
    else
      .ok st (some
        (mergeOptRow (applyMapping fm rec).1
          (getVal st.lastDefaults (c.typeOf (applyMapping fm rec).1)),
         mergeSubRows (applyMapping fm rec).2
          ((getVal st.lastSubDefaults (c.typeOf (applyMapping fm rec).1)).getD [])))

/-- The engine state after handing one record to the engine (unchanged when
the record was rejected). -/
def stateAfter (c : Consumer) (st : EngineState) (rec : List String) : EngineState :=
  match MappedFileReader.addFromFile c st rec with
  | .ok st' _ => st'
  | .err _ _ => st

/-- The merged row and sub-rows handed to the concrete consumer's
`addFromFile` for one record, when any. -/
def deliveredRow (c : Consumer) (st : EngineState) (rec : List String) :
    Option (MRow × List MRow) :=
  match MappedFileReader.addFromFile c st rec with
  | .ok _ d => d
  | .err _ _ => none

/-- Modelled from the spec: the read loop handing each record to the engine in
order, stopping at the first error; collects the rows handed to the concrete
consumer. -/
def readRows (c : Consumer) : EngineState → List (List String) →
    Except (result_t × String) (EngineState × List (MRow × List MRow))
  | st, [] => .ok (st, [])
  | st, rec :: recs =>
    match MappedFileReader.addFromFile c st rec with
    | .err code d => .error (code, d)
    | .ok st' delivered =>
      match readRows c st' recs with
      | .error e => .error e
      | .ok (stf, outs) => .ok (stf, delivered.toList ++ outs)

/-! ## combineRow (MappedFileReader::combineRow), modelled from the spec -/

/-- Double every quote character (the representation of a literal quote inside
a quoted field). -/
def escapeQuotes (cs : List Char) : List Char :=
  cs.flatMap fun c => if c = '"' then ['"', '"'] else [c]

/-- Does the value need re-quoting: it contains the field separator or a quote
character? -/
def needsQuoting (cs : List Char) : Bool :=
  cs.any fun c => c = ',' || c = '"'

/-- Modelled from the spec: re-quote a value containing the separator or a
quote character, doubling embedded quotes. -/
def quoteField (v : String) : String :=
  match needsQuoting v.toList with
  | true => String.mk ('"' :: (escapeQuotes v.toList ++ ['"']))
  | false => v

/-- Separator-join the quoted values. -/
def combineChars : List String → List Char
  | [] => []
  | [v] => (quoteField v).toList
  | v :: v' :: vs => (quoteField v).toList ++ ',' :: combineChars (v' :: vs)

/-- Modelled from the spec: `MappedFileReader::combineRow` (body not in the
sources at hand) — concatenate a mapped row's values in column order,
separator-joined, re-quoting any value containing the separator or a quote
character. -/
def MappedFileReader.combineRow (row : MRow) : String :=
  String.mk (combineChars (row.map Prod.snd))

/-! ## extractDefaultsFromFilename (filereader.h lines 187–190) -/

/-- The base implementation of `MappedFileReader::extractDefaultsFromFilename`
(filereader.h lines 187–190): it ignores the filename, writes nothing through
any of the output parameters and returns `false`.  Outputs are modelled by
explicit state passing. -/
def MappedFileReader.extractDefaultsFromFilename (_filename : String)
    (defaults : List (String × String)) (destAddress : Option Nat)
    (software : Option Nat) (hardware : Option Nat) :
    Bool × List (String × String) × Option Nat × Option Nat × Option Nat :=
  (false, defaults, destAddress, software, hardware)

/-- The defaults map after the File Driver's filename-seeding step when the
engine does not override `extractDefaultsFromFilename`. -/
def seedFromFilename (filename : String) (defaults : List (String × String)) :
    List (String × String) :=
  (MappedFileReader.extractDefaultsFromFilename filename defaults none none none).2.1

/-! ## Background-task collaborator (thread.cpp) -/

/-- The boolean flags of a `Thread` (`m_started`, `m_stopped`, `m_running`). -/
structure ThreadState where
  started : Bool
  stopped : Bool
  running : Bool
  deriving Repr, DecidableEq

/-- Modelled from the spec: `Thread::isRunning` (declared in thread.h, which
is not in the sources at hand) reports whether the task is still meant to be
running — started and not stop-requested. -/
def Thread.isRunning (t : ThreadState) : Bool := t.started && !t.stopped

/-- Modelled from the spec: `Thread::stop` (thread.h) requests a cooperative
stop by setting `m_stopped`. -/
def Thread.stop (t : ThreadState) : ThreadState := { t with stopped := true }

/-- `WaitThread::stop` (thread.cpp lines 84–89): signal the condition variable
(modelled as the event time `now` joining the signal list) and delegate to
`Thread::stop`. -/
def WaitThread.stop (t : ThreadState) (now : Nat) (signals : List Nat) :
    ThreadState × List Nat :=
  (Thread.stop t, now :: signals)

/-- The earliest condition-variable signal in the half-open window
`[now, deadline)`, if any. -/
def firstSignalIn : List Nat → Nat → Nat → Option Nat
  | [], _, _ => none
  | s :: rest, now, deadline =>
    if now ≤ s ∧ s < deadline then
      match firstSignalIn rest now deadline with
      | none => some s
      | some m => some (min s m)
    else firstSignalIn rest now deadline

/-- `WaitThread::Wait` (thread.cpp lines 98–106): compute the deadline
`now + seconds`, block on the condition variable until it is signalled or the
deadline elapses (`pthread_cond_timedwait`, modelled by an abstract timeline
of signal events), and return `isRunning()`.  The result is the wake-up time
and the boolean return value. -/
def WaitThread.Wait (t : ThreadState) (now seconds : Nat) (signals : List Nat) :
    Nat × Bool :=
  let deadline := now + seconds
  let wake :=
    match firstSignalIn signals now deadline with
    | some s => s
    | none => deadline
  (wake, Thread.isRunning t)

/-! ## Auxiliary notions used by the statements -/

/-- The content of the physical lines pulled into an open quoted field, each
preceded by the newline that ended the previous physical line. -/
def joinNL : List String → List Char
  | [] => []
  | line :: ls => '\n' :: line.toList ++ joinNL ls

/-- Fold a list of lines into the running content hash, in order. -/
def foldHash (h : Nat) (lines : List String) : Nat :=
  lines.foldl (fun a line => hashCombine a (FileReader.trim line)) h

/-- The sum of the trimmed lengths of a list of lines (the normalized size
contribution). -/
def sumTrimmed (lines : List String) : Nat :=
  (lines.map fun line => (FileReader.trim line).length).sum

/-- The values of a mapped row for which the encode/decode round trip is
claimed after amendment: every value is trim-invariant (no leading or
trailing space/tab) and contains no newline, the first value does not begin
with the comment character `#`, and the row is not a single empty value
(whose encoding is a blank line). -/
def goodRow (vals : List String) : Bool :=
  vals.all (fun v => trimList v.toList == v.toList && !(v.toList.contains '\n')) &&
  (match vals with
   | [] => true
   | v :: vs => !(v.toList.head? == some '#') && !(v == "" && vs.isEmpty))

/-! ## Concrete fixtures used by witnesses and counterexamples -/

/-- A concrete field mapping: four main columns and a repeating two-column
sub-group. -/
def fmW : FieldMapping := ⟨["type", "f1", "f2", "f3"], ["s1", "s2"]⟩

/-- A concrete consumer: accepts any header with mapping `fmW` and derives the
type from the `type` field. -/
def consumerW : Consumer := ⟨fun _ => some fmW, fun r => (getVal r "type").getD ""⟩

/-- A concrete engine state with default support, an established mapping and a
default entry for type `T`. -/
def engineW : EngineState :=
  ⟨true, some fmW,
   [("T", [("type", "T"), ("f1", "x"), ("f2", ""), ("f3", "z")])],
   [("T", [[("s1", "p")]])]⟩

/-- A concrete engine state constructed without default support. -/
def engineNoDef : EngineState := ⟨false, some fmW, [], []⟩

/-! # Theorems

First the shared auxiliary lemmas, then one theorem per claim (with its
witness or counterexample where required). -/

/-! ## Association-list lemmas -/

theorem getVal_setVal_self {β : Type} (l : List (String × β)) (k : String) (v : β) :
    getVal (setVal l k v) k = some v := by
  induction l with
  | nil => simp [setVal, getVal]
  | cons p rest ih =>
    by_cases h : p.1 = k
    · simp [setVal, h, getVal]
    · simp [setVal, h, getVal, ih]

theorem getVal_setVal_ne {β : Type} (l : List (String × β)) (k k' : String) (v : β)
    (h : k' ≠ k) : getVal (setVal l k v) k' = getVal l k' := by
  induction l with
  | nil => simp [setVal, getVal, Ne.symm h]
  | cons p rest ih =>
    by_cases hp : p.1 = k
    · simp [setVal, hp, getVal, Ne.symm h]
    · by_cases hk' : p.1 = k'
      · simp [setVal, hp, getVal, hk', h]
      · simp [setVal, hp, getVal, hk', ih]

theorem getVal_eq_none_of_not_mem {β : Type} (l : List (String × β)) (k : String)
    (h : k ∉ l.map Prod.fst) : getVal l k = none := by
  induction l with
  | nil => simp [getVal]
  | cons p rest ih =>
    simp only [List.map_cons, List.mem_cons] at h
    push_neg at h
    have h1 : ¬ p.1 = k := fun hh => h.1 hh.symm
    simp [getVal, h1, ih h.2]

theorem map_fst_setVal {β : Type} (l : List (String × β)) (k : String) (v : β) :
    (setVal l k v).map Prod.fst =
      if k ∈ l.map Prod.fst then l.map Prod.fst else l.map Prod.fst ++ [k] := by
  induction l with
  | nil => simp [setVal]
  | cons p rest ih =>
    by_cases hp : p.1 = k
    · simp [setVal, hp]
    · have : ¬ k = p.1 := fun hh => hp hh.symm
      simp only [setVal, if_neg hp, List.map_cons, ih, List.mem_cons, this, false_or]
      by_cases hm : k ∈ rest.map Prod.fst <;> simp [hm]

theorem nodup_setVal {β : Type} (l : List (String × β)) (k : String) (v : β)
    (h : (l.map Prod.fst).Nodup) : ((setVal l k v).map Prod.fst).Nodup := by
  rw [map_fst_setVal]
  by_cases hm : k ∈ l.map Prod.fst
  · simpa [hm]
  · simp only [hm, if_false]
    exact List.Nodup.append h (List.nodup_singleton k) (by simpa using hm)

/-! ## Merge lemmas -/

theorem mergeSpecVal_none (o : Option String) : mergeSpecVal o none = o := by
  cases o with
  | none => rfl
  | some v =>
    by_cases h : v = "" <;> simp [mergeSpecVal, h]

theorem getVal_mergeStep_self (acc : MRow) (e : String × String) :
    getVal (mergeStep acc e) e.1 = mergeSpecVal (getVal acc e.1) (some e.2) := by
  cases h : getVal acc e.1 with
  | none => simp [mergeStep, h, mergeSpecVal, getVal_setVal_self]
  | some v =>
    by_cases hv : v = "" <;> simp [mergeStep, h, mergeSpecVal, hv, getVal_setVal_self]

theorem getVal_mergeStep_ne (acc : MRow) (e : String × String) (k : String)
    (h : k ≠ e.1) : getVal (mergeStep acc e) k = getVal acc k := by
  cases hg : getVal acc e.1 with
  | none => simp [mergeStep, hg, getVal_setVal_ne _ _ _ _ h]
  | some v =>
    by_cases hv : v = "" <;> simp [mergeStep, hg, hv, getVal_setVal_ne _ _ _ _ h]

theorem getVal_mergeRow (d : MRow) (hd : (d.map Prod.fst).Nodup) :
    ∀ (row : MRow) (k : String),
      getVal (mergeRow row d) k = mergeSpecVal (getVal row k) (getVal d k) := by
  induction d with
  | nil =>
    intro row k
    simp [mergeRow, getVal, mergeSpecVal_none]
  | cons e d' ih =>
    intro row k
    simp only [List.map_cons, List.nodup_cons] at hd
    have hrec : mergeRow row (e :: d') = mergeRow (mergeStep row e) d' := by
      simp [mergeRow]
    rw [hrec, ih hd.2]
    by_cases hk : k = e.1
    · have hnone : getVal d' k = none := by
        rw [hk]; exact getVal_eq_none_of_not_mem _ _ hd.1
      have hcons : getVal (e :: d') k = some e.2 := by simp [getVal, hk.symm]
      rw [hnone, hcons, mergeSpecVal_none, hk]
      exact getVal_mergeStep_self row e
    · have hcons : getVal (e :: d') k = getVal d' k := by
        have hne : ¬ e.1 = k := fun hh => hk hh.symm
        simp [getVal, hne]
      rw [hcons, getVal_mergeStep_ne _ _ _ hk]

theorem mergeRow_no_fabrication (d : MRow) (hd : (d.map Prod.fst).Nodup)
    (row : MRow) (k : String) (v : String)
    (h : getVal (mergeRow row d) k = some v) :
    getVal row k = some v ∨ getVal d k = some v := by
  rw [getVal_mergeRow d hd] at h
  cases hr : getVal row k with
  | none =>
    rw [hr] at h
    simp only [mergeSpecVal] at h
    exact Or.inr h
  | some w =>
    rw [hr] at h
    by_cases hw : w = ""
    · subst hw
      have h' : some ((getVal d k).getD "") = some v := by
        simpa [mergeSpecVal] using h
      cases hdk : getVal d k with
      | none =>
        rw [hdk] at h'
        simp only [Option.getD_none] at h'
        exact Or.inl h'
      | some u =>
        rw [hdk] at h'
        simp only [Option.getD_some] at h'
        exact Or.inr h'
    · simp only [mergeSpecVal, if_neg hw, Option.some.injEq] at h
      exact Or.inl (congrArg some h)

theorem mergeSubRows_getElem (subs : List MRow) :
    ∀ (dsubs : List MRow) (i : Nat),
      (mergeSubRows subs dsubs)[i]? =
        match subs[i]? with
        | none => none
        | some si =>
          some (match dsubs[i]? with
                | some di => mergeRow si di
                | none => si) := by
  induction subs with
  | nil => intro dsubs i; simp [mergeSubRows]
  | cons s subs ih =>
    intro dsubs i
    cases dsubs with
    | nil =>
      cases i with
      | zero => simp [mergeSubRows]
      | succ j =>
        cases h : subs[j]? <;> simp [mergeSubRows, h]
    | cons d dsubs' =>
      cases i with
      | zero => simp [mergeSubRows]
      | succ j => simpa [mergeSubRows] using ih dsubs' j

theorem mergeSubRows_length (subs : List MRow) :
    ∀ dsubs : List MRow, (mergeSubRows subs dsubs).length = subs.length := by
  induction subs with
  | nil => intro dsubs; simp [mergeSubRows]
  | cons s subs ih =>
    intro dsubs
    cases dsubs with
    | nil => simp [mergeSubRows]
    | cons d dsubs' => simp [mergeSubRows, ih]

/-! ## Zip lemmas -/

theorem map_fst_zipCols (cols : List String) :
    ∀ vals : List String, (zipCols cols vals).map Prod.fst = cols.take vals.length := by
  induction cols with
  | nil => intro vals; simp [zipCols]
  | cons c cols ih =>
    intro vals
    cases vals with
    | nil => simp [zipCols]
    | cons v vals' => simpa [zipCols, List.zip] using ih vals'

theorem zipCols_fst_snd (row : MRow) :
    zipCols (row.map Prod.fst) (row.map Prod.snd) = row := by
  induction row with
  | nil => rfl
  | cons p rest ih => simp [zipCols, List.zip] at ih ⊢

theorem take_min_length (l : List String) :
    ∀ n : Nat, l.take (min l.length n) = l.take n := by
  induction l with
  | nil => intro n; simp
  | cons x xs ih =>
    intro n
    cases n with
    | zero => simp
    | succ m => simpa [Nat.succ_min_succ] using ih m

/-! ## String representation lemmas -/

theorem toList_mk (l : List Char) : (String.mk l).toList = l := rfl

theorem mk_toList (s : String) : String.mk s.toList = s := rfl

theorem quoteField_toList_quoted (v : String) (hq : needsQuoting v.toList = true) :
    (quoteField v).toList = '"' :: (escapeQuotes v.toList ++ ['"']) := by
  unfold quoteField
  rw [hq]
  rfl

theorem quoteField_toList_plain (v : String) (hq : needsQuoting v.toList = false) :
    (quoteField v).toList = v.toList := by
  unfold quoteField
  rw [hq]

/-! ## Trimming lemmas -/

theorem dropWhile_append_last (c : Char) (hc : isWsChar c = false) (l : List Char) :
    List.dropWhile isWsChar (l ++ [c]) = List.dropWhile isWsChar l ++ [c] := by
  induction l with
  | nil => simp [List.dropWhile, hc]
  | cons a t ih =>
    by_cases ha : isWsChar a = true
    · simp [List.dropWhile, ha, ih]
    · simp only [Bool.not_eq_true] at ha
      simp [List.dropWhile, ha]

theorem trimList_cons_of_not_ws (c : Char) (hc : isWsChar c = false) (cs : List Char) :
    trimList (c :: cs) = c :: (List.dropWhile isWsChar cs.reverse).reverse := by
  unfold trimList
  have h1 : List.dropWhile isWsChar (c :: cs) = c :: cs := by
    simp [List.dropWhile, hc]
  rw [h1]
  have h2 : (c :: cs).reverse = cs.reverse ++ [c] := by simp
  rw [h2, dropWhile_append_last c hc, List.reverse_append]
  simp

theorem trimList_cons_of_ws (c : Char) (hc : isWsChar c = true) (cs : List Char) :
    trimList (c :: cs) = trimList cs := by
  unfold trimList
  simp [List.dropWhile, hc]

theorem trimList_length_le (l : List Char) : (trimList l).length ≤ l.length := by
  unfold trimList
  calc ((List.dropWhile isWsChar (List.dropWhile isWsChar l).reverse).reverse).length
      = (List.dropWhile isWsChar (List.dropWhile isWsChar l).reverse).length := by
        rw [List.length_reverse]
    _ ≤ (List.dropWhile isWsChar l).reverse.length :=
        (List.dropWhile_sublist isWsChar).length_le
    _ = (List.dropWhile isWsChar l).length := by rw [List.length_reverse]
    _ ≤ l.length := (List.dropWhile_sublist isWsChar).length_le

theorem not_ws_head_of_trimList_fixed (c : Char) (cs : List Char)
    (h : trimList (c :: cs) = c :: cs) : isWsChar c = false := by
  by_contra hc
  simp only [Bool.not_eq_false] at hc
  have h1 := trimList_cons_of_ws c hc cs
  rw [h] at h1
  have h2 := trimList_length_le cs
  rw [h1.symm] at h2
  simp at h2

/-! ## splitLines lemmas -/

theorem splitLinesAux_no_newline (cs : List Char) (h : '\n' ∉ cs) :
    ∀ cur : List Char, splitLinesAux cs cur =
      if (cur ++ cs).isEmpty then [] else [String.mk (cur ++ cs)] := by
  induction cs with
  | nil => intro cur; simp [splitLinesAux]
  | cons c rest ih =>
    intro cur
    simp only [List.mem_cons, not_or] at h
    have hc : ¬ c = '\n' := fun hh => h.1 hh.symm
    simp only [splitLinesAux, if_neg hc, ih h.2 (cur ++ [c]), List.append_assoc,
      List.singleton_append]

theorem splitLines_single (L : List Char) (h : '\n' ∉ L) (hne : L ≠ []) :
    FileReader.splitLines (String.mk L) = [String.mk L] := by
  unfold FileReader.splitLines
  have : (String.mk L).toList = L := rfl
  rw [this, splitLinesAux_no_newline L h]
  simp [hne]

/-! ## parseChars lemmas -/

theorem parseChars_nil_false (cur : List Char) (acc : List String) :
    parseChars [] false cur acc = .done (acc ++ [FileReader.trim (String.mk cur)]) := by
  simp [parseChars]

theorem parseChars_open_quote (cs : List Char) (cur : List Char) (acc : List String) :
    parseChars ('"' :: cs) false cur acc = parseChars cs true cur acc := by
  simp [parseChars]

theorem parseChars_comma (cs : List Char) (cur : List Char) (acc : List String) :
    parseChars (',' :: cs) false cur acc =
      parseChars cs false [] (acc ++ [FileReader.trim (String.mk cur)]) := by
  simp [parseChars]

theorem parseChars_plain_step (c : Char) (rest cur : List Char) (acc : List String)
    (h1 : c ≠ ',') (h2 : c ≠ '"') :
    parseChars (c :: rest) false cur acc = parseChars rest false (cur ++ [c]) acc := by
  simp [parseChars, h1, h2]

theorem parseChars_inQ_step (c : Char) (rest cur : List Char) (acc : List String)
    (h2 : c ≠ '"') :
    parseChars (c :: rest) true cur acc = parseChars rest true (cur ++ [c]) acc := by
  simp [parseChars, h2]

theorem parseChars_doubled (rest cur : List Char) (acc : List String) :
    parseChars ('"' :: '"' :: rest) true cur acc =
      parseChars rest true (cur ++ ['"']) acc := by
  simp [parseChars]

theorem parseChars_close (rest cur : List Char) (acc : List String)
    (h : rest.head? ≠ some '"') :
    parseChars ('"' :: rest) true cur acc = parseChars rest false cur acc := by
  cases rest with
  | nil => simp [parseChars]
  | cons c2 r2 =>
    have hc2 : c2 ≠ '"' := by
      intro hh
      exact h (by rw [hh]; rfl)
    simp [parseChars, hc2]

theorem parseChars_plain (cs : List Char) (h : ∀ ch ∈ cs, ch ≠ ',' ∧ ch ≠ '"') :
    ∀ (rest cur : List Char) (acc : List String),
      parseChars (cs ++ rest) false cur acc = parseChars rest false (cur ++ cs) acc := by
  induction cs with
  | nil => intro rest cur acc; simp
  | cons c cs' ih =>
    intro rest cur acc
    simp only [List.mem_cons] at h
    have hc := h c (Or.inl rfl)
    have h' : ∀ ch ∈ cs', ch ≠ ',' ∧ ch ≠ '"' := fun ch hm => h ch (Or.inr hm)
    rw [List.cons_append, parseChars_plain_step c _ _ _ hc.1 hc.2, ih h' rest (cur ++ [c]) acc]
    simp

theorem parseChars_inQ_no_quote (cs : List Char) (h : '"' ∉ cs) :
    ∀ (cur : List Char) (acc : List String),
      parseChars cs true cur acc = .cont acc (cur ++ cs) := by
  induction cs with
  | nil => intro cur acc; simp [parseChars]
  | cons c cs' ih =>
    intro cur acc
    simp only [List.mem_cons, not_or] at h
    have hc : c ≠ '"' := fun hh => h.1 hh.symm
    rw [parseChars_inQ_step c _ _ _ hc, ih h.2 (cur ++ [c]) acc]
    simp

theorem parseChars_escaped (v : List Char) :
    ∀ (rest cur : List Char) (acc : List String), rest.head? ≠ some '"' →
      parseChars (escapeQuotes v ++ '"' :: rest) true cur acc =
        parseChars rest false (cur ++ v) acc := by
  induction v with
  | nil =>
    intro rest cur acc hrest
    have hesc : escapeQuotes [] = [] := by simp [escapeQuotes]
    rw [hesc, List.nil_append, parseChars_close rest cur acc hrest]
    simp
  | cons c v' ih =>
    intro rest cur acc hrest
    by_cases hc : c = '"'
    · subst hc
      have hesc : escapeQuotes ('"' :: v') = '"' :: '"' :: escapeQuotes v' := by
        simp [escapeQuotes]
      rw [hesc, List.cons_append, List.cons_append, parseChars_doubled,
        ih rest (cur ++ ['"']) acc hrest]
      simp
    · have hesc : escapeQuotes (c :: v') = c :: escapeQuotes v' := by
        simp [escapeQuotes, hc]
      rw [hesc, List.cons_append, parseChars_inQ_step c _ _ _ hc,
        ih rest (cur ++ [c]) acc hrest]
      simp

theorem parseChars_field (v : String) (rest : List Char) (acc : List String)
    (hrest : rest.head? ≠ some '"') :
    parseChars ((quoteField v).toList ++ rest) false [] acc =
      parseChars rest false v.toList acc := by
  by_cases hq : needsQuoting v.toList = true
  · rw [quoteField_toList_quoted v hq, List.cons_append, parseChars_open_quote]
    have harr : (escapeQuotes v.toList ++ ['"']) ++ rest =
        escapeQuotes v.toList ++ '"' :: rest := by simp
    rw [harr, parseChars_escaped v.toList rest [] acc hrest]
    simp
  · simp only [Bool.not_eq_true] at hq
    have hplain : ∀ ch ∈ v.toList, ch ≠ ',' ∧ ch ≠ '"' := by
      intro ch hm
      by_contra hcontra
      have hany : needsQuoting v.toList = true := by
        simp only [needsQuoting, List.any_eq_true]
        refine ⟨ch, hm, ?_⟩
        rw [not_and_or, not_not, not_not] at hcontra
        rcases hcontra with h1 | h1 <;> simp [h1]
      rw [hany] at hq
      exact Bool.noConfusion hq
    rw [quoteField_toList_plain v hq, parseChars_plain v.toList hplain rest [] acc]
    simp

theorem parseChars_combine (vals : List String)
    (htrim : ∀ v ∈ vals, trimList v.toList = v.toList) (hne : vals ≠ []) :
    ∀ acc : List String,
      parseChars (combineChars vals) false [] acc = .done (acc ++ vals) := by
  induction vals with
  | nil => exact absurd rfl hne
  | cons v vs ih =>
    intro acc
    have htv : trimList v.toList = v.toList := htrim v (List.mem_cons_self v vs)
    have htrimmed : FileReader.trim (String.mk v.toList) = v := by
      unfold FileReader.trim
      rw [toList_mk, htv, mk_toList]
    cases vs with
    | nil =>
      have hcc : combineChars [v] = (quoteField v).toList ++ [] := by
        simp [combineChars]
      rw [hcc, parseChars_field v [] acc (by simp), parseChars_nil_false, htrimmed]
    | cons v' vs' =>
      have hcc : combineChars (v :: v' :: vs') =
          (quoteField v).toList ++ (',' :: combineChars (v' :: vs')) := by
        simp [combineChars]
      rw [hcc, parseChars_field v (',' :: combineChars (v' :: vs')) acc (by simp),
        parseChars_comma, htrimmed,
        ih (fun w hw => htrim w (List.mem_cons_of_mem v hw)) (by simp) _]
      simp

/-! ## Newline-freedom of the encoded row -/

theorem mem_escapeQuotes (v : List Char) (c : Char) (h : c ∈ escapeQuotes v) :
    c ∈ v ∨ c = '"' := by
  unfold escapeQuotes at h
  rw [List.mem_flatMap] at h
  obtain ⟨a, ha, hc⟩ := h
  by_cases haq : a = '"'
  · subst haq
    have hcq : c = '"' := by simpa using hc
    exact Or.inr hcq
  · rw [if_neg haq] at hc
    simp only [List.mem_singleton] at hc
    subst hc
    exact Or.inl ha

theorem quoteField_no_newline (v : String) (h : '\n' ∉ v.toList) :
    '\n' ∉ (quoteField v).toList := by
  by_cases hq : needsQuoting v.toList = true
  · rw [quoteField_toList_quoted v hq]
    intro hmem
    simp only [List.mem_cons, List.mem_append, List.mem_singleton] at hmem
    rcases hmem with h1 | h1 | h1
    · exact absurd h1 (by decide)
    · rcases mem_escapeQuotes v.toList '\n' h1 with h2 | h2
      · exact h h2
      · exact absurd h2 (by decide)
    · exact absurd h1 (by decide)
  · simp only [Bool.not_eq_true] at hq
    rw [quoteField_toList_plain v hq]
    exact h

theorem combineChars_no_newline (vals : List String)
    (h : ∀ v ∈ vals, '\n' ∉ v.toList) : '\n' ∉ combineChars vals := by
  induction vals with
  | nil => simp [combineChars]
  | cons v vs ih =>
    cases vs with
    | nil =>
      have : combineChars [v] = (quoteField v).toList := by simp [combineChars]
      rw [this]
      exact quoteField_no_newline v (h v (List.mem_cons_self v []))
    | cons v' vs' =>
      have hcc : combineChars (v :: v' :: vs') =
          (quoteField v).toList ++ (',' :: combineChars (v' :: vs')) := by
        simp [combineChars]
      rw [hcc]
      intro hmem
      simp only [List.mem_append, List.mem_cons] at hmem
      rcases hmem with h1 | h1 | h1
      · exact quoteField_no_newline v (h v (List.mem_cons_self v _)) h1
      · exact absurd h1 (by decide)
      · exact ih (fun w hw => h w (List.mem_cons_of_mem v hw)) h1

/-! ## Round-trip assembly -/

theorem goodRow_spec (v : String) (vs : List String) (h : goodRow (v :: vs) = true) :
    (∀ w ∈ v :: vs, trimList w.toList = w.toList ∧ '\n' ∉ w.toList) ∧
      v.toList.head? ≠ some '#' ∧ ¬(v = "" ∧ vs = []) := by
  unfold goodRow at h
  rw [Bool.and_eq_true, List.all_eq_true] at h
  obtain ⟨h1, h2⟩ := h
  refine ⟨?_, ?_, ?_⟩
  · intro w hw
    have hh := h1 w hw
    rw [Bool.and_eq_true] at hh
    constructor
    · exact beq_iff_eq.1 hh.1
    · have := hh.2
      simp only [Bool.not_eq_true'] at this
      simpa using this
  · have := h2
    simp only [Bool.and_eq_true, Bool.not_eq_true'] at this
    intro hc
    have h3 := this.1
    rw [hc] at h3
    simp at h3
  · have := h2
    simp only [Bool.and_eq_true, Bool.not_eq_true'] at this
    intro hc
    have h4 := this.2
    rw [hc.1] at h4
    simp [hc.2] at h4

theorem toList_eq_nil_iff (v : String) : v.toList = [] ↔ v = "" := by
  constructor
  · intro h
    have := mk_toList v
    rw [h] at this
    exact this.symm
  · intro h
    rw [h]
    rfl

theorem combineChars_single (v : String) : combineChars [v] = (quoteField v).toList := by
  simp only [combineChars]

theorem combineChars_cons_cons (v v' : String) (vs' : List String) :
    combineChars (v :: v' :: vs') =
      (quoteField v).toList ++ (',' :: combineChars (v' :: vs')) := by
  simp only [combineChars]

theorem combineChars_head (v : String) (vs : List String)
    (htrim : trimList v.toList = v.toList)
    (hhash : v.toList.head? ≠ some '#')
    (hnotempty : ¬(v = "" ∧ vs = [])) :
    ∃ c cs', combineChars (v :: vs) = c :: cs' ∧ isWsChar c = false ∧ ¬ c = '#' := by
  by_cases hq : needsQuoting v.toList = true
  · have hql := quoteField_toList_quoted v hq
    cases vs with
    | nil =>
      refine ⟨'"', escapeQuotes v.toList ++ ['"'], ?_, by decide, by decide⟩
      rw [combineChars_single, hql]
    | cons v' vs' =>
      refine ⟨'"', (escapeQuotes v.toList ++ ['"']) ++ (',' :: combineChars (v' :: vs')), ?_,
        by decide, by decide⟩
      rw [combineChars_cons_cons, hql]
      rfl
  · simp only [Bool.not_eq_true] at hq
    have hql := quoteField_toList_plain v hq
    by_cases hv : v = ""
    · cases vs with
      | nil => exact absurd ⟨hv, rfl⟩ hnotempty
      | cons v' vs' =>
        refine ⟨',', combineChars (v' :: vs'), ?_, by decide, by decide⟩
        rw [combineChars_cons_cons, hql, hv]
        rfl
    · have hvne : v.toList ≠ [] := fun hh => hv ((toList_eq_nil_iff v).1 hh)
      obtain ⟨c, cs, hcs⟩ := List.exists_cons_of_ne_nil hvne
      have hws : isWsChar c = false := by
        apply not_ws_head_of_trimList_fixed c cs
        rw [← hcs]
        exact htrim
      have hch : ¬ c = '#' := by
        intro hh
        apply hhash
        rw [hcs, hh]
        rfl
      cases vs with
      | nil =>
        refine ⟨c, cs, ?_, hws, hch⟩
        rw [combineChars_single, hql, hcs]
      | cons v' vs' =>
        refine ⟨c, cs ++ (',' :: combineChars (v' :: vs')), ?_, hws, hch⟩
        rw [combineChars_cons_cons, hql, hcs]
        rfl

theorem splitFields_single_line (L : List Char) (c : Char) (cs' : List Char)
    (hL : L = c :: cs') (hws : isWsChar c = false) (hc : ¬ c = '#')
    (fields : List String) (hp : parseChars L false [] [] = .done fields)
    (lineNo hash size : Nat) :
    (FileReader.splitFields [String.mk L] lineNo hash size).row = fields := by
  have htl : (FileReader.trim (String.mk L)).toList = trimList L := by
    unfold FileReader.trim
    rw [toList_mk, toList_mk]
  have htrimcons : trimList L = c :: (List.dropWhile isWsChar cs'.reverse).reverse := by
    rw [hL]
    exact trimList_cons_of_not_ws c hws cs'
  have hempty : (FileReader.trim (String.mk L)).toList.isEmpty = false := by
    rw [htl, htrimcons]
    rfl
  have hhead : ¬ (FileReader.trim (String.mk L)).toList.head? = some '#' := by
    rw [htl, htrimcons]
    intro hh
    exact hc (Option.some.inj hh)
  unfold FileReader.splitFields
  simp only [toList_mk, hp, hempty, hhead, Bool.false_eq_true, if_false, ite_false]

/-- Claim C1: the round trip fails as stated for fully arbitrary values — a
value with leading whitespace is trimmed by the tokenizer, so the
reconstructed mapped row differs from the original. -/
theorem claim_C1_counterexample :
    zipCols (([("a", " x")] : MRow).map Prod.fst)
        ((FileReader.splitFields
          (FileReader.splitLines (MappedFileReader.combineRow [("a", " x")])) 0 0 0).row)
      ≠ [("a", " x")] := by decide

/-- Claim C1 (amended): for every mapped row whose values are trim-invariant
(no leading or trailing space or tab), contain no newline, whose first value
does not begin with the comment character, and which is not a single empty
value, encoding with `combineRow` and decoding with the tokenizer followed by
re-applying the column mapping reproduces the mapped row exactly — in
particular values containing the separator or the quote character round-trip
via re-quoting. -/
theorem claim_C1_roundTrip (row : MRow) (h : goodRow (row.map Prod.snd) = true) :
    zipCols (row.map Prod.fst)
        ((FileReader.splitFields
          (FileReader.splitLines (MappedFileReader.combineRow row)) 0 0 0).row)
      = row := by
  cases hrow : row.map Prod.snd with
  | nil =>
    have hrownil : row = [] := by
      cases row with
      | nil => rfl
      | cons p r => simp at hrow
    subst hrownil
    decide
  | cons v vs =>
    have hgood : goodRow (v :: vs) = true := by rw [← hrow]; exact h
    obtain ⟨hall, hhash, hnempty⟩ := goodRow_spec v vs hgood
    have hnl : '\n' ∉ combineChars (v :: vs) :=
      combineChars_no_newline _ (fun w hw => (hall w hw).2)
    obtain ⟨c, cs', hcons, hws, hc⟩ :=
      combineChars_head v vs (hall v (List.mem_cons_self v vs)).1 hhash hnempty
    have hLne : combineChars (v :: vs) ≠ [] := by rw [hcons]; simp
    have hcr : MappedFileReader.combineRow row = String.mk (combineChars (v :: vs)) := by
      unfold MappedFileReader.combineRow
      rw [hrow]
    have hp : parseChars (combineChars (v :: vs)) false [] [] = .done ([] ++ (v :: vs)) :=
      parseChars_combine (v :: vs) (fun w hw => (hall w hw).1) (by simp) []
    rw [hcr, splitLines_single _ hnl hLne,
      splitFields_single_line _ c cs' hcons hws hc _ hp 0 0 0]
    rw [List.nil_append, ← hrow, zipCols_fst_snd]

/-- Claim C1 witness: a concrete mapped row whose values contain the field
separator and the quote character survives the round trip. -/
theorem claim_C1_witness :
    goodRow (([("a", "x,y"), ("b", "w\"v"), ("c", "")] : MRow).map Prod.snd) = true ∧
      zipCols (([("a", "x,y"), ("b", "w\"v"), ("c", "")] : MRow).map Prod.fst)
        ((FileReader.splitFields
          (FileReader.splitLines
            (MappedFileReader.combineRow [("a", "x,y"), ("b", "w\"v"), ("c", "")])) 0 0 0).row)
      = [("a", "x,y"), ("b", "w\"v"), ("c", "")] :=
  ⟨by decide, claim_C1_roundTrip [("a", "x,y"), ("b", "w\"v"), ("c", "")] (by decide)⟩

/-! ## Tokenizer return value and accumulators -/

theorem gatherRest_more (ls : List String) :
    ∀ (lineNo hash size : Nat) (acc : List String) (cur : List Char),
      (gatherRest ls lineNo hash size acc cur).more = true := by
  induction ls with
  | nil => intro _ _ _ _ _; rfl
  | cons l ls ih =>
    intro lineNo hash size acc cur
    simp only [gatherRest]
    split
    · rfl
    · exact ih _ _ _ _ _

theorem splitFields_cons_more (line : String) (ls : List String) (lineNo hash size : Nat) :
    (FileReader.splitFields (line :: ls) lineNo hash size).more = true := by
  simp only [FileReader.splitFields]
  split
  · rfl
  · split
    · rfl
    · split
      · rfl
      · exact gatherRest_more ls _ _ _ _ _

/-- Claim C4: `splitFields` returns `false` only when the input stream has no
more characters to offer; an invocation producing an empty record from a
blank or comment line while further stream content follows returns `true`. -/
theorem claim_C4 (lines : List String) (lineNo hash size : Nat) :
    ((FileReader.splitFields lines lineNo hash size).more = false ↔ lines = []) ∧
      ((FileReader.splitFields lines lineNo hash size).row = [] →
        (FileReader.splitFields lines lineNo hash size).rest ≠ [] →
        (FileReader.splitFields lines lineNo hash size).more = true) := by
  cases lines with
  | nil =>
    refine ⟨by simp [FileReader.splitFields], fun _ hrest => ?_⟩
    exact absurd (by simp [FileReader.splitFields] : (FileReader.splitFields [] lineNo hash
      size).rest = []) hrest
  | cons l ls =>
    have hm := splitFields_cons_more l ls lineNo hash size
    refine ⟨?_, fun _ _ => hm⟩
    rw [hm]
    simp

/-- Claim C4 witness: a comment line consumed with further stream content
following produces an empty record and the call returns `true`. -/
theorem claim_C4_witness :
    (FileReader.splitFields ["# c", "A"] 0 0 0).more = true :=
  (claim_C4 ["# c", "A"] 0 0 0).2 (by decide) (by decide)

/-- Claim C5: the stream consisting of a comment line, an empty line, a
whitespace-only line and `A,B,C` yields exactly one non-empty record,
reported at line 4, with all four lines advancing the line counter and
contributing their trimmed lengths (9+0+0+5 = 14) to the size accumulator and
their content to the running hash; the whitespace-only line alone yields an
empty record rather than a single empty-string field. -/
theorem claim_C5 :
    FileReader.readLineFromStream (FileReader.splitLines "# comment\n\n  \nA,B,C\n") 0 0 0
        = (some (["A", "B", "C"], 4),
           (4, foldHash 0 ["# comment", "", "  ", "A,B,C"], 14), []) ∧
      FileReader.readLineFromStream [] 4 (foldHash 0 ["# comment", "", "  ", "A,B,C"]) 14
        = (none, (4, foldHash 0 ["# comment", "", "  ", "A,B,C"], 14), []) ∧
      (∀ lineNo hash size : Nat,
        (FileReader.splitFields ["  ", "A,B,C"] lineNo hash size).row = []) := by
  refine ⟨by decide, by decide, fun lineNo hash size => rfl⟩

theorem gatherRest_noQuote (ls : List String) :
    ∀ (lineNo hash size : Nat) (acc : List String) (cur : List Char),
      (∀ l ∈ ls, '"' ∉ l.toList) →
      gatherRest ls lineNo hash size acc cur =
        ⟨acc ++ [FileReader.trim (String.mk (cur ++ joinNL ls))],
         lineNo + ls.length, foldHash hash ls, size + sumTrimmed ls, [], true⟩ := by
  induction ls with
  | nil =>
    intro lineNo hash size acc cur h
    simp [gatherRest, joinNL, foldHash, sumTrimmed]
  | cons l ls ih =>
    intro lineNo hash size acc cur h
    unfold gatherRest
    have hl : '"' ∉ l.toList := h l (List.mem_cons_self l ls)
    rw [parseChars_inQ_no_quote l.toList hl (cur ++ ['\n']) acc]
    rw [show ((cur ++ ['\n']) ++ l.toList) = cur ++ ('\n' :: l.toList) by simp]
    show gatherRest ls (lineNo + 1) (hashCombine hash (FileReader.trim l))
        (size + (FileReader.trim l).length) acc (cur ++ '\n' :: l.toList) = _
    rw [ih _ _ _ acc _ (fun w hw => h w (List.mem_cons_of_mem l hw))]
    have hjoin : cur ++ ('\n' :: l.toList) ++ joinNL ls = cur ++ joinNL (l :: ls) := by
      simp [joinNL]
    rw [hjoin]
    have hlen : lineNo + 1 + ls.length = lineNo + (l :: ls).length := by
      simp [List.length_cons]
      omega
    have hhash : foldHash (hashCombine hash (FileReader.trim l)) ls =
        foldHash hash (l :: ls) := rfl
    have hsize : size + (FileReader.trim l).length + sumTrimmed ls =
        size + sumTrimmed (l :: ls) := by
      simp [sumTrimmed]
      omega
    rw [hlen, hhash, hsize]

/-- Claim C6: a quoted field opened on a line and never closed before true
end-of-stream is accepted without error: the tokenizer consumes the whole
stream, the final field contains all subsequent line content, and every
pulled line contributes its trimmed length to the size accumulator and its
content to the running hash. -/
theorem claim_C6 (first : String) (lines : List String) (acc : List String)
    (cur : List Char) (lineNo hash size : Nat)
    (h0 : (trimList first.toList).isEmpty = false)
    (h1 : ¬ (trimList first.toList).head? = some '#')
    (h2 : parseChars first.toList false [] [] = .cont acc cur)
    (h3 : ∀ l ∈ lines, '"' ∉ l.toList) :
    FileReader.splitFields (first :: lines) lineNo hash size =
      ⟨acc ++ [FileReader.trim (String.mk (cur ++ joinNL lines))],
       lineNo + 1 + lines.length,
       foldHash (hashCombine hash (FileReader.trim first)) lines,
       size + (FileReader.trim first).length + sumTrimmed lines, [], true⟩ := by
  have ht : (FileReader.trim first).toList = trimList first.toList := by
    unfold FileReader.trim
    rw [toList_mk]
  simp only [FileReader.splitFields]
  rw [ht, h2, h0]
  rw [if_neg (by simp : ¬ (false = true)), if_neg h1]
  show gatherRest lines (lineNo + 1) (hashCombine hash (FileReader.trim first))
      (size + (FileReader.trim first).length) acc cur = _
  rw [gatherRest_noQuote lines _ _ _ acc cur h3]

/-- Claim C6 witness: the stream whose first line opens a quote that is never
closed is consumed entirely into one field spanning all three lines. -/
theorem claim_C6_witness :
    FileReader.splitFields ["\"a,b", "c", "d"] 0 0 0 =
      ⟨["a,b\nc\nd"], 3,
       foldHash (hashCombine 0 (FileReader.trim "\"a,b")) ["c", "d"],
       0 + (FileReader.trim "\"a,b").length + sumTrimmed ["c", "d"], [], true⟩ :=
  claim_C6 "\"a,b" ["c", "d"] [] ['a', ',', 'b'] 0 0 0 (by decide) (by decide)
    (by decide) (by decide)

/-! ## Engine unfolding lemmas -/

theorem addFromFile_regular (c : Consumer) (st : EngineState) (fm : FieldMapping)
    (rec : List String) (h1 : st.columnNames = some fm) (h2 : isDefaultRow rec = false) :
    MappedFileReader.addFromFile c st rec =
      .ok st (some
        (mergeOptRow (applyMapping fm rec).1
          (getVal st.lastDefaults (c.typeOf (applyMapping fm rec).1)),
         mergeSubRows (applyMapping fm rec).2
          ((getVal st.lastSubDefaults (c.typeOf (applyMapping fm rec).1)).getD []))) := by
  simp only [MappedFileReader.addFromFile, h1, h2, Bool.false_eq_true, if_false, ite_false]

theorem addFromFile_default_ok (c : Consumer) (st : EngineState) (fm : FieldMapping)
    (rec : List String) (h1 : st.columnNames = some fm) (h2 : isDefaultRow rec = true)
    (h3 : st.supportsDefaults = true) :
    MappedFileReader.addFromFile c st rec =
      .ok { st with
            lastDefaults := setVal st.lastDefaults
              (c.typeOf (applyMapping fm (stripMarker rec)).1)
              (applyMapping fm (stripMarker rec)).1
            lastSubDefaults := setVal st.lastSubDefaults
              (c.typeOf (applyMapping fm (stripMarker rec)).1)
              (applyMapping fm (stripMarker rec)).2 } none := by
  simp only [MappedFileReader.addFromFile, h1, h2, h3, if_true, ite_true]

theorem addFromFile_no_default_support (c : Consumer) (st : EngineState)
    (fm : FieldMapping) (rec : List String) (h1 : st.columnNames = some fm)
    (h2 : st.supportsDefaults = false) (h3 : isDefaultRow rec = true) :
    MappedFileReader.addFromFile c st rec =
      .err .RESULT_ERR_INVALID_ARG "defaults not supported" := by
  simp only [MappedFileReader.addFromFile, h1, h3, h2, if_true, ite_true,
    Bool.false_eq_true, if_false, ite_false]
  rfl

/-! ## Claim C2: default merging of regular rows -/

/-- Claim C2: a regular row processed while a default entry exists for its
inferred type is handed to the concrete consumer merged with that entry —
every field absent or empty in the regular row is filled from the
corresponding field of the default, sub-rows are merged positionally with the
missing positions unmerged, and no field value appears in the merged result
that was absent from both rows. -/
theorem claim_C2 (c : Consumer) (st : EngineState) (fm : FieldMapping)
    (rec : List String) (d : MRow)
    (h1 : st.columnNames = some fm) (h2 : isDefaultRow rec = false)
    (hd : getVal st.lastDefaults (c.typeOf (applyMapping fm rec).1) = some d)
    (hnd : (d.map Prod.fst).Nodup) :
    deliveredRow c st rec = some
        (mergeRow (applyMapping fm rec).1 d,
         mergeSubRows (applyMapping fm rec).2
           ((getVal st.lastSubDefaults (c.typeOf (applyMapping fm rec).1)).getD [])) ∧
      (∀ k, getVal (mergeRow (applyMapping fm rec).1 d) k =
        mergeSpecVal (getVal (applyMapping fm rec).1 k) (getVal d k)) ∧
      (∀ (subs dsubs : List MRow) (i : Nat),
        (mergeSubRows subs dsubs)[i]? =
          match subs[i]? with
          | none => none
          | some si =>
            some (match dsubs[i]? with
                  | some di => mergeRow si di
                  | none => si)) ∧
      (∀ k v, getVal (mergeRow (applyMapping fm rec).1 d) k = some v →
        getVal (applyMapping fm rec).1 k = some v ∨ getVal d k = some v) := by
  refine ⟨?_, getVal_mergeRow d hnd _, fun subs => mergeSubRows_getElem subs,
    fun k v hkv => mergeRow_no_fabrication d hnd _ k v hkv⟩
  unfold deliveredRow
  rw [addFromFile_regular c st fm rec h1 h2, hd]
  rfl

/-- Claim C2 witness: a concrete regular row of type `T` with an empty `f2`
field and one sub-row is delivered merged against the stored default entry. -/
theorem claim_C2_witness :
    deliveredRow consumerW engineW ["T", "a", "", "c", "u"] = some
        ([("type", "T"), ("f1", "a"), ("f2", ""), ("f3", "c")], [[("s1", "u")]]) ∧
      getVal (mergeRow (applyMapping fmW ["T", "a", "", "c", "u"]).1
          [("type", "T"), ("f1", "x"), ("f2", ""), ("f3", "z")]) "f2" = some "" :=
  ⟨(claim_C2 consumerW engineW fmW ["T", "a", "", "c", "u"]
      [("type", "T"), ("f1", "x"), ("f2", ""), ("f3", "z")]
      rfl rfl (by decide) (by decide)).1,
   by
    rw [(claim_C2 consumerW engineW fmW ["T", "a", "", "c", "u"]
      [("type", "T"), ("f1", "x"), ("f2", ""), ("f3", "z")]
      rfl rfl (by decide) (by decide)).2.1 "f2"]
    decide⟩

/-! ## Claim C3: the defaults store holds one entry per type -/

/-- Claim C3: a default row replaces its type's entry in the defaults store
outright — main row and sub-rows as a unit — leaving other types unchanged
and key-uniqueness intact, and every later regular row of that type merges
only against the new entry, so no field value of a previously stored default
can influence rows processed after the replacement. -/
theorem claim_C3 (c : Consumer) (st : EngineState) (fm : FieldMapping)
    (rec : List String) (h1 : st.columnNames = some fm)
    (h2 : isDefaultRow rec = true) (h3 : st.supportsDefaults = true) :
    MappedFileReader.addFromFile c st rec = .ok (stateAfter c st rec) none ∧
      getVal (stateAfter c st rec).lastDefaults
          (c.typeOf (applyMapping fm (stripMarker rec)).1)
        = some (applyMapping fm (stripMarker rec)).1 ∧
      getVal (stateAfter c st rec).lastSubDefaults
          (c.typeOf (applyMapping fm (stripMarker rec)).1)
        = some (applyMapping fm (stripMarker rec)).2 ∧
      (∀ t', t' ≠ c.typeOf (applyMapping fm (stripMarker rec)).1 →
        getVal (stateAfter c st rec).lastDefaults t' = getVal st.lastDefaults t' ∧
        getVal (stateAfter c st rec).lastSubDefaults t' = getVal st.lastSubDefaults t') ∧
      ((st.lastDefaults.map Prod.fst).Nodup →
        ((stateAfter c st rec).lastDefaults.map Prod.fst).Nodup) ∧
      ((st.lastSubDefaults.map Prod.fst).Nodup →
        ((stateAfter c st rec).lastSubDefaults.map Prod.fst).Nodup) ∧
      (stateAfter c st rec).columnNames = st.columnNames ∧
      (stateAfter c st rec).supportsDefaults = st.supportsDefaults ∧
      (∀ rec2, isDefaultRow rec2 = false →
        c.typeOf (applyMapping fm rec2).1 = c.typeOf (applyMapping fm (stripMarker rec)).1 →
        deliveredRow c (stateAfter c st rec) rec2 = some
          (mergeRow (applyMapping fm rec2).1 (applyMapping fm (stripMarker rec)).1,
           mergeSubRows (applyMapping fm rec2).2 (applyMapping fm (stripMarker rec)).2)) := by
  have hst : stateAfter c st rec = { st with
      lastDefaults := setVal st.lastDefaults
        (c.typeOf (applyMapping fm (stripMarker rec)).1)
        (applyMapping fm (stripMarker rec)).1
      lastSubDefaults := setVal st.lastSubDefaults
        (c.typeOf (applyMapping fm (stripMarker rec)).1)
        (applyMapping fm (stripMarker rec)).2 } := by
    unfold stateAfter
    rw [addFromFile_default_ok c st fm rec h1 h2 h3]
  refine ⟨?_, ?_, ?_, ?_, ?_, ?_, ?_, ?_, ?_⟩
  · rw [hst]
    exact addFromFile_default_ok c st fm rec h1 h2 h3
  · rw [hst]
    exact getVal_setVal_self _ _ _
  · rw [hst]
    exact getVal_setVal_self _ _ _
  · intro t' ht'
    rw [hst]
    exact ⟨getVal_setVal_ne _ _ _ _ ht', getVal_setVal_ne _ _ _ _ ht'⟩
  · intro hnd
    rw [hst]
    exact nodup_setVal _ _ _ hnd
  · intro hnd
    rw [hst]
    exact nodup_setVal _ _ _ hnd
  · rw [hst]
  · rw [hst]
  · intro rec2 hreg hty
    have hcol2 : (stateAfter c st rec).columnNames = some fm := by rw [hst]; exact h1
    unfold deliveredRow
    rw [addFromFile_regular c (stateAfter c st rec) fm rec2 hcol2 hreg, hty, hst]
    rw [getVal_setVal_self, getVal_setVal_self]
    rfl

/-- Claim C3 witness: after processing a second default row for type `T` on a
state that already holds a `T` entry, the store holds exactly the new entry. -/
theorem claim_C3_witness :
    getVal (stateAfter consumerW engineW ["*T", "y", "q", ""]).lastDefaults
        (consumerW.typeOf (applyMapping fmW (stripMarker ["*T", "y", "q", ""])).1)
      = some (applyMapping fmW (stripMarker ["*T", "y", "q", ""])).1 ∧
      getVal (stateAfter consumerW engineW ["*T", "y", "q", ""]).lastDefaults "T"
        = some [("type", "T"), ("f1", "y"), ("f2", "q"), ("f3", "")] :=
  ⟨(claim_C3 consumerW engineW fmW ["*T", "y", "q", ""] rfl rfl rfl).2.1,
   by
    have h := (claim_C3 consumerW engineW fmW ["*T", "y", "q", ""] rfl rfl rfl).2.1
    exact h.trans (by decide)⟩

/-! ## Claim C7: default rows without default support -/

/-- Claim C7: the claim is false as stated — on an engine constructed without
default support, a record whose first field begins with `*` fails through the
inherited `addDefaultFromFile`, whose result code is `RESULT_ERR_INVALID_ARG`
(filereader.h lines 213–217), i.e. the very code reserved for invalid
arguments, not a distinct error kind. -/
theorem claim_C7_counterexample :
    MappedFileReader.addFromFile consumerW engineNoDef ["*r", "w"]
        = .err .RESULT_ERR_INVALID_ARG "defaults not supported" ∧
      ¬ ∃ code desc, MappedFileReader.addFromFile consumerW engineNoDef ["*r", "w"]
          = .err code desc ∧ code ≠ .RESULT_ERR_INVALID_ARG := by
  have hval : MappedFileReader.addFromFile consumerW engineNoDef ["*r", "w"]
      = .err .RESULT_ERR_INVALID_ARG "defaults not supported" := by decide
  refine ⟨hval, ?_⟩
  rintro ⟨code, desc, heq, hne⟩
  rw [hval] at heq
  injection heq with hcode hdesc
  exact hne hcode.symm

/-- Claim C7 (amended): on an engine constructed without default support, a
record whose first field begins with the default marker fails with the
description "defaults not supported" and the result code
`RESULT_ERR_INVALID_ARG` — the same code as caller-side misuse; only the
description distinguishes the failure. -/
theorem claim_C7_amended (c : Consumer) (st : EngineState) (fm : FieldMapping)
    (rec : List String) (h1 : st.columnNames = some fm)
    (h2 : st.supportsDefaults = false) (h3 : isDefaultRow rec = true) :
    MappedFileReader.addFromFile c st rec =
      .err .RESULT_ERR_INVALID_ARG "defaults not supported" :=
  addFromFile_no_default_support c st fm rec h1 h2 h3

/-- Claim C7 witness: a concrete default row on a concrete engine without
default support. -/
theorem claim_C7_witness :
    MappedFileReader.addFromFile consumerW engineNoDef ["*w", "r"]
        = .err .RESULT_ERR_INVALID_ARG "defaults not supported" :=
  claim_C7_amended consumerW engineNoDef fmW ["*w", "r"] rfl rfl (by decide)

/-! ## Claim C8: mapping immutability -/

theorem addFromFile_ok_columnNames (c : Consumer) (st : EngineState) (fm : FieldMapping)
    (rec : List String) (st' : EngineState) (dv : Option (MRow × List MRow))
    (hcol : st.columnNames = some fm)
    (h : MappedFileReader.addFromFile c st rec = .ok st' dv) :
    st'.columnNames = some fm := by
  simp only [MappedFileReader.addFromFile, hcol] at h
  split at h
  · split at h
    · cases h
      rfl
    · cases h
  · cases h
    exact hcol

theorem readRows_columnNames (c : Consumer) (fm : FieldMapping) :
    ∀ (recs : List (List String)) (st : EngineState), st.columnNames = some fm →
      ∀ (stf : EngineState) (outs : List (MRow × List MRow)),
        readRows c st recs = .ok (stf, outs) → stf.columnNames = some fm := by
  intro recs
  induction recs with
  | nil =>
    intro st h stf outs hr
    simp only [readRows] at hr
    cases hr
    exact h
  | cons rec recs ih =>
    intro st h stf outs hr
    simp only [readRows] at hr
    cases hpr : MappedFileReader.addFromFile c st rec with
    | err code dsc =>
      rw [hpr] at hr
      cases hr
    | ok st' delivered =>
      simp only [hpr] at hr
      have hcol' := addFromFile_ok_columnNames c st fm rec st' delivered h hpr
      cases hrr : readRows c st' recs with
      | error e =>
        simp only [hrr] at hr
        cases hr
      | ok p =>
        obtain ⟨stf2, outs2⟩ := p
        simp only [hrr] at hr
        have hstf : stf2 = stf := congrArg Prod.fst (Except.ok.inj hr)
        rw [← hstf]
        exact ih st' hcol' stf2 outs2 hrr

/-- Claim C8: once the column mapping is established it never changes — it is
preserved by every single record and by any whole run of records — every
delivered row is the interpretation of its record against that same mapping
(merged against the current default entry), a record with fewer fields than
the main column count maps exactly the first columns and produces no
sub-rows, and each sub-row maps a chunk of the repeating sub-group columns. -/
theorem claim_C8 (c : Consumer) (st : EngineState) (fm : FieldMapping)
    (h : st.columnNames = some fm) :
    (∀ rec, (stateAfter c st rec).columnNames = some fm) ∧
      (∀ recs stf outs, readRows c st recs = .ok (stf, outs) →
        stf.columnNames = some fm) ∧
      (∀ rec r s, deliveredRow c st rec = some (r, s) →
        r = mergeOptRow (applyMapping fm rec).1
              (getVal st.lastDefaults (c.typeOf (applyMapping fm rec).1)) ∧
        s = mergeSubRows (applyMapping fm rec).2
              ((getVal st.lastSubDefaults (c.typeOf (applyMapping fm rec).1)).getD [])) ∧
      (∀ rec, (applyMapping fm rec).1.map Prod.fst = fm.mainCols.take rec.length) ∧
      (∀ rec : List String, rec.length ≤ fm.mainCols.length →
        (applyMapping fm rec).2 = []) ∧
      (∀ rec sr, sr ∈ (applyMapping fm rec).2 →
        sr.map Prod.fst = fm.subCols.take sr.length) := by
  refine ⟨?_, fun recs => readRows_columnNames c fm recs st h, ?_, ?_, ?_, ?_⟩
  · intro rec
    unfold stateAfter
    cases haf : MappedFileReader.addFromFile c st rec with
    | ok st' dv => exact addFromFile_ok_columnNames c st fm rec st' dv h haf
    | err code dsc => exact h
  · intro rec r s hds
    unfold deliveredRow at hds
    by_cases hdr : isDefaultRow rec = true
    · by_cases hsd : st.supportsDefaults = true
      · rw [addFromFile_default_ok c st fm rec h hdr hsd] at hds
        cases hds
      · rw [addFromFile_no_default_support c st fm rec h
          (Bool.not_eq_true _ ▸ hsd : st.supportsDefaults = false) hdr] at hds
        cases hds
    · rw [addFromFile_regular c st fm rec h (Bool.not_eq_true _ ▸ hdr)] at hds
      have hds' := Option.some.inj hds
      exact ⟨(congrArg Prod.fst hds').symm, (congrArg Prod.snd hds').symm⟩
  · intro rec
    exact map_fst_zipCols fm.mainCols rec
  · intro rec hlen
    have hdrop : rec.drop fm.mainCols.length = [] := by
      rw [List.drop_eq_nil_iff]
      exact hlen
    simp only [applyMapping, hdrop]
    split
    · rfl
    · simp [chunkList, chunkFuel]
  · intro rec sr hmem
    simp only [applyMapping] at hmem
    by_cases hsub : fm.subCols.isEmpty = true
    · rw [if_pos hsub] at hmem
      cases hmem
    · rw [if_neg hsub] at hmem
      rw [List.mem_map] at hmem
      obtain ⟨chunk, _, hchunk⟩ := hmem
      rw [← hchunk]
      have hlen : (zipCols fm.subCols chunk).length = min fm.subCols.length chunk.length := by
        simp [zipCols]
      rw [map_fst_zipCols fm.subCols chunk, hlen]
      rw [take_min_length fm.subCols chunk.length]

/-- Claim C8 witness: a concrete engine keeps its mapping across a record with
fewer fields than the main column count, and that record maps only the first
columns. -/
theorem claim_C8_witness :
    (stateAfter consumerW engineW ["T", "a"]).columnNames = some fmW ∧
      (applyMapping fmW ["T", "a"]).1.map Prod.fst = fmW.mainCols.take 2 :=
  ⟨(claim_C8 consumerW engineW fmW rfl).1 ["T", "a"],
   (claim_C8 consumerW engineW fmW rfl).2.2.2.1 ["T", "a"]⟩

/-! ## Claim C9: the bounded timed wait -/

theorem firstSignalIn_eq_none (now deadline : Nat) :
    ∀ signals : List Nat, (∀ s ∈ signals, ¬(now ≤ s ∧ s < deadline)) →
      firstSignalIn signals now deadline = none := by
  intro signals
  induction signals with
  | nil => intro _; rfl
  | cons s rest ih =>
    intro h
    simp only [firstSignalIn]
    rw [if_neg (h s (List.mem_cons_self s rest))]
    exact ih fun w hw => h w (List.mem_cons_of_mem s hw)

theorem firstSignalIn_none_spec (now deadline : Nat) :
    ∀ signals : List Nat, firstSignalIn signals now deadline = none →
      ∀ s ∈ signals, ¬(now ≤ s ∧ s < deadline) := by
  intro signals
  induction signals with
  | nil => intro _ s hs; cases hs
  | cons s rest ih =>
    intro h w hw
    simp only [firstSignalIn] at h
    by_cases hs : now ≤ s ∧ s < deadline
    · rw [if_pos hs] at h
      cases hfr : firstSignalIn rest now deadline with
      | none => rw [hfr] at h; cases h
      | some m => rw [hfr] at h; cases h
    · rw [if_neg hs] at h
      rcases List.mem_cons.1 hw with hw1 | hw1
      · rw [hw1]; exact hs
      · exact ih h w hw1

theorem firstSignalIn_some_spec (now deadline : Nat) :
    ∀ (signals : List Nat) (m : Nat), firstSignalIn signals now deadline = some m →
      m ∈ signals ∧ now ≤ m ∧ m < deadline ∧
        ∀ s ∈ signals, now ≤ s → s < deadline → m ≤ s := by
  intro signals
  induction signals with
  | nil => intro m h; cases h
  | cons s rest ih =>
    intro m h
    simp only [firstSignalIn] at h
    by_cases hs : now ≤ s ∧ s < deadline
    · rw [if_pos hs] at h
      cases hfr : firstSignalIn rest now deadline with
      | none =>
        rw [hfr] at h
        injection h with hm
        subst hm
        refine ⟨List.mem_cons_self s rest, hs.1, hs.2, ?_⟩
        intro w hw hn hdl
        rcases List.mem_cons.1 hw with hw1 | hw1
        · rw [hw1]
        · exact absurd ⟨hn, hdl⟩ (firstSignalIn_none_spec now deadline rest hfr w hw1)
      | some m' =>
        rw [hfr] at h
        injection h with hm
        subst hm
        obtain ⟨hmem, hn', hdl', hmin⟩ := ih m' hfr
        by_cases hle : s ≤ m'
        · rw [Nat.min_eq_left hle]
          refine ⟨List.mem_cons_self s rest, hs.1, hs.2, ?_⟩
          intro w hw hn hdl
          rcases List.mem_cons.1 hw with hw1 | hw1
          · rw [hw1]
          · exact le_trans hle (hmin w hw1 hn hdl)
        · have hle' : m' ≤ s := le_of_not_le hle
          rw [Nat.min_eq_right hle']
          refine ⟨List.mem_cons_of_mem s hmem, hn', hdl', ?_⟩
          intro w hw hn hdl
          rcases List.mem_cons.1 hw with hw1 | hw1
          · rw [hw1]; exact hle'
          · exact hmin w hw1 hn hdl
    · rw [if_neg hs] at h
      obtain ⟨hmem, hn', hdl', hmin⟩ := ih m h
      refine ⟨List.mem_cons_of_mem s hmem, hn', hdl', ?_⟩
      intro w hw hn hdl
      rcases List.mem_cons.1 hw with hw1 | hw1
      · exact absurd ⟨hw1 ▸ hn, hw1 ▸ hdl⟩ hs
      · exact hmin w hw1 hn hdl

/-- Claim C9: the bounded timed wait wakes no later than `now + seconds`,
wakes exactly at the deadline when no signal falls inside the window, wakes at
the earliest signal when one does, and its boolean return value reports
whether the task is still meant to be running (started and not
stop-requested) — in particular it reports `false` after a stop request, and
`WaitThread::stop` both wakes a concurrent wait immediately and makes the
return value `false`. -/
theorem claim_C9 (t : ThreadState) (now seconds : Nat) (signals : List Nat) :
    (WaitThread.Wait t now seconds signals).2 = Thread.isRunning t ∧
      (WaitThread.Wait t now seconds signals).1 ≤ now + seconds ∧
      ((∀ s ∈ signals, ¬(now ≤ s ∧ s < now + seconds)) →
        (WaitThread.Wait t now seconds signals).1 = now + seconds) ∧
      (∀ m, firstSignalIn signals now (now + seconds) = some m →
        (WaitThread.Wait t now seconds signals).1 = m ∧ m ∈ signals ∧ now ≤ m ∧
          m < now + seconds ∧ ∀ s ∈ signals, now ≤ s → s < now + seconds → m ≤ s) ∧
      (WaitThread.Wait (Thread.stop t) now seconds signals).2 = false ∧
      (0 < seconds →
        (WaitThread.Wait (WaitThread.stop t now signals).1 now seconds
            (WaitThread.stop t now signals).2).1 = now ∧
          (WaitThread.Wait (WaitThread.stop t now signals).1 now seconds
            (WaitThread.stop t now signals).2).2 = false) := by
  refine ⟨rfl, ?_, ?_, ?_, ?_, ?_⟩
  · cases hf : firstSignalIn signals now (now + seconds) with
    | none => simp [WaitThread.Wait, hf]
    | some m =>
      have := (firstSignalIn_some_spec now (now + seconds) signals m hf).2.2.1
      simp only [WaitThread.Wait, hf]
      exact le_of_lt this
  · intro hnone
    simp [WaitThread.Wait, firstSignalIn_eq_none now (now + seconds) signals hnone]
  · intro m hf
    obtain ⟨hmem, hn, hdl, hmin⟩ := firstSignalIn_some_spec now (now + seconds) signals m hf
    exact ⟨by simp [WaitThread.Wait, hf], hmem, hn, hdl, hmin⟩
  · simp [WaitThread.Wait, Thread.isRunning, Thread.stop]
  · intro hsec
    constructor
    · have hwin : now ≤ now ∧ now < now + seconds := ⟨le_refl now, by omega⟩
      simp only [WaitThread.stop, WaitThread.Wait, firstSignalIn, if_pos hwin]
      cases hfr : firstSignalIn signals now (now + seconds) with
      | none => simp
      | some m' =>
        have hle : now ≤ m' := (firstSignalIn_some_spec now (now + seconds) signals m' hfr).2.1
        simp [Nat.min_eq_left hle]
    · simp [WaitThread.Wait, WaitThread.stop, Thread.isRunning, Thread.stop]

/-- Claim C9 witness: a wait of 5 seconds from time 10 with a signal at 12
wakes at 12 on a running task, and at the deadline 15 when the only signal is
outside the window. -/
theorem claim_C9_witness :
    ((WaitThread.Wait ⟨true, false, true⟩ 10 5 [20, 12, 13]).1 = 12 ∧
        (12 : Nat) ∈ [20, 12, 13] ∧ (10 : Nat) ≤ 12 ∧ (12 : Nat) < 10 + 5 ∧
        ∀ s ∈ [20, 12, 13], 10 ≤ s → s < 10 + 5 → 12 ≤ s) ∧
      (WaitThread.Wait ⟨true, false, true⟩ 10 5 [20]).1 = 10 + 5 :=
  ⟨((claim_C9 ⟨true, false, true⟩ 10 5 [20, 12, 13]).2.2.2.1 12 (by decide)),
   ((claim_C9 ⟨true, false, true⟩ 10 5 [20]).2.2.1 (by decide))⟩

/-! ## Claim C10: the base extractDefaultsFromFilename -/

/-- Claim C10: the base implementation of `extractDefaultsFromFilename`
returns `false` for every filename and leaves the defaults map and the
optional destination-address, software-version and hardware-version outputs
unchanged, so an engine that does not override it never seeds
filename-derived defaults. -/
theorem claim_C10 (filename : String) (defaults : List (String × String))
    (destAddress software hardware : Option Nat) :
    MappedFileReader.extractDefaultsFromFilename filename defaults destAddress
        software hardware
      = (false, defaults, destAddress, software, hardware) ∧
      seedFromFilename filename defaults = defaults :=
  ⟨rfl, rfl⟩

end Ebusd
